import Mathlib

/-!
Verification development for the agentic tool-gateway core of hwpx-mcp
(`src/hwpx_mcp/agentic/`): tool records and fingerprinting (`registry.py`),
keyword grouping (`grouping.py`), BM25 / Jaccard / hybrid retrieval
(`retrieval.py`), the hierarchical router (`router.py`), the gateway search
facade (`gateway.py`), the rule-based tool-only agent
(`tool_only_agent.py`), and the HTTP chat validation (`http_api.py`).

Modelling conventions:
* Python floats are modelled as exact rationals (`ℚ`); the properties
  proved here (signs, bounds, sortedness) are stated for that exact
  arithmetic.
* `math.log` is transcendental, so it is threaded through the retrieval
  definitions as an uninterpreted parameter `logQ : ℚ → ℚ`; no claim in
  scope constrains its values.
* `_stable_hash` (SHA-256 over a canonical JSON dump) is likewise threaded
  as an uninterpreted parameter `StableHash`; no claim in scope constrains
  the hash value, only the fields built around it.
* Python `dict`s are modelled as insertion-ordered association lists with
  in-place update, matching CPython semantics.
-/

namespace HwpxMcp

/-- ASCII lowercasing of one character, as `str.lower()` acts on the ASCII
range (the keyword sets and token pattern below only inspect ASCII). -/
def pyLowerChar (c : Char) : Char :=
  if 65 ≤ c.toNat && c.toNat ≤ 90 then Char.ofNat (c.toNat + 32) else c

/-- `str.lower()` over the characters of a string. -/
def lowerChars (cs : List Char) : List Char :=
  cs.map pyLowerChar

/-- String lowercasing (`str.lower()`). -/
def pyLower (s : String) : String :=
  String.mk (lowerChars s.data)

/-- Whitespace stripped by Python `str.strip()`:
tab, LF, VT, FF, CR and space. -/
def isPySpace (c : Char) : Bool :=
  (9 ≤ c.toNat && c.toNat ≤ 13) || c.toNat = 32

/-- Python `str.strip()`. -/
def pyStrip (s : String) : String :=
  String.mk (((s.data.dropWhile isPySpace).reverse.dropWhile isPySpace).reverse)

/-- Characters matched by the token pattern `[a-z0-9_]+` of `retrieval.py`. -/
def isTokenChar (c : Char) : Bool :=
  (97 ≤ c.toNat && c.toNat ≤ 122) ||
  (48 ≤ c.toNat && c.toNat ≤ 57) ||
  c.toNat = 95

/-- Splits a character list into maximal runs of characters satisfying `p`
(the semantics of `re.findall` for a pattern of the form `[...]+`), carrying
the (reversed) current run. -/
def runsAux (p : Char → Bool) : List Char → List Char → List String
  | [], acc => if acc.isEmpty then [] else [String.mk acc.reverse]
  | c :: rest, acc =>
    if p c then runsAux p rest (c :: acc)
    else if acc.isEmpty then runsAux p rest []
    else String.mk acc.reverse :: runsAux p rest []

/-- `_tokenize` of `retrieval.py`: `TOKEN_PATTERN.findall(text.lower())`. -/
def tokenize (text : String) : List String :=
  runsAux isTokenChar (lowerChars text.data) []

/-- Whether the first list is an initial segment of the second. -/
def leadsChars : List Char → List Char → Bool
  | [], _ => true
  | _ :: _, [] => false
  | a :: as, b :: bs => a = b && leadsChars as bs

/-- Whether `nd` occurs as a contiguous segment of the second list. -/
def segmentIn (nd : List Char) : List Char → Bool
  | [] => nd.isEmpty
  | c :: rest => leadsChars nd (c :: rest) || segmentIn nd rest

/-- Python `needle in hay` on strings (substring containment). -/
def strContains (hay needle : String) : Bool :=
  segmentIn needle.data hay.data

/-- Lexicographic comparison of character lists by code point, the order
Python uses when comparing strings with `<=`. -/
def strLeChars : List Char → List Char → Bool
  | [], _ => true
  | _ :: _, [] => false
  | a :: as, b :: bs =>
    a.toNat < b.toNat || (a.toNat = b.toNat && strLeChars as bs)

/-- Python `a <= b` on strings. -/
def pyStrLe (a b : String) : Bool :=
  strLeChars a.data b.data

/-- Python `a.startswith(b)`. -/
def strStarts (a b : String) : Bool :=
  leadsChars b.data a.data

/-- JSON values as produced by `_to_json_value` of `registry.py`.  Python
floats are represented by exact rationals. -/
inductive Json where
  | str (s : String)
  | int (n : Int)
  | num (q : ℚ)
  | bool (b : Bool)
  | null
  | arr (xs : List Json)
  | obj (kvs : List (String × Json))

/-- A JSON object: stringified keys to values, in insertion order. -/
abbrev JsonObject := List (String × Json)

/-- A raw tool descriptor as consumed by `_convert_tool` of `registry.py`
after the `str(...)` / `_to_json_object` coercions: the `name` and
`description` entries of the `model_dump()` mapping coerced to strings, the
`inputSchema` coerced to a JSON object, and `outputSchema` kept only when it
is a dict. -/
structure ToolDump where
  name : String
  description : String
  inputSchema : JsonObject
  outputSchema : Option JsonObject

/-- `ToolRecord` of `models.py`.  `group` is one of the nine group-name
strings; `tags` is the ordered tag tuple. -/
structure ToolRecord where
  tool_id : String
  name : String
  description : String
  input_schema : JsonObject
  output_schema : Option JsonObject
  group : String
  tags : List String
  schema_hash : String

/-- Python `" ".join(parts)`. -/
def joinSpaces : List String → String
  | [] => ""
  | [x] => x
  | x :: xs => x ++ " " ++ joinSpaces xs

/-- `ToolRecord.search_blob` of `models.py`. -/
def ToolRecord.search_blob (r : ToolRecord) : String :=
  r.name ++ " " ++ r.description ++ " " ++ joinSpaces r.tags

/-- `GROUP_NAMES` of `models.py`. -/
def groupNames : List String :=
  ["document_lifecycle", "text_insertion", "table_chart", "field_meta",
   "find_replace", "xml_direct", "export_convert", "util_debug", "other"]

/-- `GROUP_KEYWORDS` of `grouping.py`, in dict insertion order. -/
def groupKeywordTable : List (String × List String) :=
  [("document_lifecycle",
    ["connect", "disconnect", "create", "open", "save", "close", "document"]),
   ("text_insertion",
    ["insert_text", "font", "charshape", "parashape", "paragraph", "heading",
     "bold", "italic", "underline"]),
   ("table_chart", ["table", "cell", "chart", "picture", "image", "equation"]),
   ("field_meta", ["field", "bookmark", "metatag", "metadata", "template"]),
   ("find_replace", ["find", "replace", "search"]),
   ("xml_direct", ["xml", "xpath", "validate", "parse_section", "smart_patch"]),
   ("export_convert", ["export", "convert", "pdf", "html"]),
   ("util_debug",
    ["ping", "capabilities", "platform_info", "get_document_info", "page_count"]),
   ("other", [])]

/-- `classify_group` of `grouping.py`: first group (in table order, skipping
`other`) with a keyword occurring in the lowered `"{name} {description}"`. -/
def classifyGroup (toolName description : String) : String :=
  let lowered := pyLower (toolName ++ " " ++ description)
  match groupKeywordTable.find? (fun p =>
      !(p.1 == "other") && p.2.any (fun k => strContains lowered k)) with
  | some p => p.1
  | none => "other"

/-- `_detect_tags` of `registry.py`. -/
def detectTags (toolName description : String) : List String :=
  let lowered := pyLower (toolName ++ " " ++ description)
  let tags : List String := []
  let tags := if strContains lowered "windows" then tags ++ ["windows-only"] else tags
  let tags :=
    if ["xml", "xpath", "hwpx"].any (fun t => strContains lowered t) then
      tags ++ ["xml"]
    else tags
  let tags :=
    if ["pdf", "html", "convert", "export"].any (fun t => strContains lowered t) then
      tags ++ ["export"]
    else tags
  if tags.isEmpty then ["generic"] else tags

/-- The type of `_stable_hash` of `registry.py` applied to the payload
`{name, inputSchema, outputSchema}`: SHA-256 over a canonical JSON dump,
kept uninterpreted (no claim in scope constrains the digest value). -/
abbrev StableHash := String → JsonObject → Option JsonObject → String

/-- `_convert_tool` of `registry.py`.  The source is a total function: it
builds a `ToolRecord` for every descriptor and has no failure path. -/
def convertTool (h : StableHash) (d : ToolDump) : ToolRecord :=
  let name := pyStrip d.name
  let description := pyStrip d.description
  let input_schema := d.inputSchema
  let output_schema := d.outputSchema
  let group := classifyGroup name description
  let tags := detectTags name description
  let schema_hash := h name input_schema output_schema
  { tool_id := name ++ ":" ++ schema_hash
    name := name
    description := description
    input_schema := input_schema
    output_schema := output_schema
    group := group
    tags := tags
    schema_hash := schema_hash }

/-- Ordering on records used by `build_registry`'s
`sorted(records, key=lambda record: record.name)`. -/
def nameLE (a b : ToolRecord) : Prop := pyStrLe a.name b.name = true

instance : DecidableRel nameLE := fun a b =>
  inferInstanceAs (Decidable (pyStrLe a.name b.name = true))

/-- `build_registry` of `registry.py`: convert each listed descriptor and
sort ascending by `name` (Python `sorted` is a stable sort; so is
`List.insertionSort`). -/
def buildRegistry (h : StableHash) (tools : List ToolDump) : List ToolRecord :=
  List.insertionSort nameLE (tools.map (convertTool h))

/-- `ToolScore` of `models.py`; `score` is an exact rational. -/
structure ToolScore where
  tool_id : String
  score : ℚ
  reason : String
deriving DecidableEq, Repr

/-- The ascending order on the Python sort key
`(-item.score, item.tool_id)` used by all three retrievers: descending
score, ties broken by ascending `tool_id`. -/
def scoreLE (a b : ToolScore) : Prop :=
  b.score < a.score ∨ (a.score = b.score ∧ pyStrLe a.tool_id b.tool_id = true)

instance : DecidableRel scoreLE := fun a b =>
  inferInstanceAs (Decidable
    (b.score < a.score ∨ (a.score = b.score ∧ pyStrLe a.tool_id b.tool_id = true)))

/-- `scores.sort(key=lambda item: (-item.score, item.tool_id))` (stable). -/
def sortScores (l : List ToolScore) : List ToolScore :=
  List.insertionSort scoreLE l

/-- Tokens of a record's search blob (computed in
`LexicalRetriever.__post_init__`). -/
def blobTokens (r : ToolRecord) : List String :=
  tokenize r.search_blob

/-- A document's length in tokens (`self._doc_lengths`). -/
def docLength (r : ToolRecord) : ℕ :=
  (blobTokens r).length

/-- `Counter(tokens)` lookup: the term frequency of `t` in record `r`. -/
def termFrequency (r : ToolRecord) (t : String) : ℕ :=
  (blobTokens r).count t

/-- Document frequency of term `t` (`document_frequencies`). -/
def docFrequency (records : List ToolRecord) (t : String) : ℕ :=
  records.countP (fun r => (blobTokens r).contains t)

/-- `total_docs = max(len(self.records), 1)`. -/
def totalDocs (records : List ToolRecord) : ℕ :=
  max records.length 1

/-- `self._avg_doc_length`: mean token count, or `1.0` for no documents. -/
def avgDocLength (records : List ToolRecord) : ℚ :=
  let ls := records.map docLength
  if ls.isEmpty then 1 else ((ls.sum : ℚ)) / ((ls.length : ℚ))

/-- BM25 constants `k1 = 1.5` and `b = 0.75` of `LexicalRetriever`. -/
def bm25K1 : ℚ := 3 / 2

/-- BM25 length-normalization constant `b = 0.75`. -/
def bm25B : ℚ := 3 / 4

/-- The `self._idf` table: `ln(1 + (N - df + 0.5) / (df + 0.5))` for terms
occurring in some document, and the `.get(term, 0.0)` default otherwise.
`math.log` is the uninterpreted parameter `logQ`. -/
def idf (logQ : ℚ → ℚ) (records : List ToolRecord) (t : String) : ℚ :=
  if 0 < docFrequency records t then
    logQ (1 + (((totalDocs records : ℚ)) - ((docFrequency records t : ℚ)) + 1 / 2) /
      (((docFrequency records t : ℚ)) + 1 / 2))
  else 0

/-- The BM25 score accumulation loop of `LexicalRetriever.search` for one
record: terms with zero frequency are skipped, the rest contribute
`idf * tf * (k1+1) / (tf + k1 * (1 - b + b * len/avgdl))`. -/
def bm25Score (logQ : ℚ → ℚ) (records : List ToolRecord) (r : ToolRecord)
    (queryTerms : List String) : ℚ :=
  queryTerms.foldl (fun acc term =>
    let tf := termFrequency r term
    if tf = 0 then acc
    else acc + idf logQ records term *
      (((tf : ℚ) * (bm25K1 + 1)) /
        ((tf : ℚ) + bm25K1 *
          (1 - bm25B + bm25B * (((docLength r : ℚ)) / avgDocLength records)))))
    0

/-- The group filter of the retrievers: `set(groups or [])` is empty, or
contains the record's group. -/
def passesGroups (groups : Option (List String)) (g : String) : Bool :=
  let gf := groups.getD []
  if gf.isEmpty then true else gf.contains g

/-- The body of the scoring loop of `LexicalRetriever.search`: skip records
failing the group filter, score the rest, and emit only positive scores. -/
def lexicalScoreOf (logQ : ℚ → ℚ) (records : List ToolRecord)
    (queryTerms : List String) (groups : Option (List String))
    (r : ToolRecord) : Option ToolScore :=
  if !(passesGroups groups r.group) then none
  else
    let score := bm25Score logQ records r queryTerms
    if 0 < score then some (ToolScore.mk r.tool_id score "lexical") else none

/-- `LexicalRetriever.search` of `retrieval.py`. -/
def lexicalSearch (logQ : ℚ → ℚ) (records : List ToolRecord) (query : String)
    (groups : Option (List String)) (topK : Int) : List ToolScore :=
  if topK ≤ 0 then []
  else
    let queryTerms := (tokenize query).eraseDups
    let scores := records.filterMap (lexicalScoreOf logQ records queryTerms groups)
    (sortScores scores).take topK.toNat

/-- The body of the scoring loop of `SemanticRetriever.search`: skip
records failing the group filter or with an empty token set, and emit only
positive Jaccard scores. -/
def semanticScoreOf (queryTokens : List String) (groups : Option (List String))
    (r : ToolRecord) : Option ToolScore :=
  if !(passesGroups groups r.group) then none
  else
    let recordTokens := (blobTokens r).eraseDups
    if recordTokens.isEmpty then none
    else
      let inter := (queryTokens.filter (fun t => recordTokens.contains t)).length
      let uniSize := ((queryTokens ++ recordTokens).eraseDups).length
      let uni := if uniSize = 0 then 1 else uniSize
      let score := ((inter : ℚ)) / ((uni : ℚ))
      if 0 < score then some (ToolScore.mk r.tool_id score "semantic") else none

/-- `SemanticRetriever.search` of `retrieval.py` (token-set Jaccard). -/
def semanticSearch (records : List ToolRecord) (query : String)
    (groups : Option (List String)) (topK : Int) : List ToolScore :=
  if topK ≤ 0 then []
  else
    let queryTokens := (tokenize query).eraseDups
    let results := records.filterMap (semanticScoreOf queryTokens groups)
    (sortScores results).take topK.toNat

/-- `max((item.score for item in scores), default=0.0)` of `_normalize`. -/
def maxScoreOf : List ToolScore → ℚ
  | [] => 0
  | x :: xs => xs.foldl (fun m y => max m y.score) x.score

/-- Lookup in the `_normalize` dict: the dict comprehension keeps the last
entry for a duplicated `tool_id`; `.get(id, 0.0)` defaults to `0`, and when
the maximum is nonpositive every stored value is `0`. -/
def normGet (scores : List ToolScore) (maxScore : ℚ) (id : String) : ℚ :=
  match scores.reverse.find? (fun s => s.tool_id == id) with
  | none => 0
  | some s => if maxScore ≤ 0 then 0 else s.score / maxScore

/-- `by_id[key] = by_id.get(key, 0.0) + v` on an insertion-ordered dict. -/
def updAdd (m : List (String × ℚ)) (id : String) (v : ℚ) : List (String × ℚ) :=
  if m.any (fun p => p.1 == id) then
    m.map (fun p => if p.1 == id then (p.1, p.2 + v) else p)
  else m ++ [(id, v)]

/-- Default `lexical_weight = 0.65` of `HybridRetriever`. -/
def lexicalWeight : ℚ := 13 / 20

/-- Default `semantic_weight = 0.35` of `HybridRetriever`. -/
def semanticWeight : ℚ := 7 / 20

/-- One side's contribution in the fusion loops of `HybridRetriever.search`:
`weight * norm.get(tool_id, 0.0)` where `norm = _normalize(scores)`. -/
def fuseContrib (weight : ℚ) (scores : List ToolScore) : String → ℚ :=
  fun id => weight * normGet scores (maxScoreOf scores) id

/-- One fusion loop of `HybridRetriever.search`:
`for score in scores: by_id[score.tool_id] = by_id.get(score.tool_id, 0.0) + f(score.tool_id)`. -/
def fuseFold (f : String → ℚ) (scores : List ToolScore)
    (m : List (String × ℚ)) : List (String × ℚ) :=
  scores.foldl (fun m s => updAdd m s.tool_id (f s.tool_id)) m

/-- `HybridRetriever.search` of `retrieval.py` with the default weights. -/
def hybridSearch (logQ : ℚ → ℚ) (records : List ToolRecord) (query : String)
    (groups : Option (List String)) (topK : Int) : List ToolScore :=
  let pool : Int := max (topK * 3) topK
  let lexicalScores := lexicalSearch logQ records query groups pool
  let semanticScores := semanticSearch records query groups pool
  let byId := fuseFold (fuseContrib lexicalWeight lexicalScores) lexicalScores []
  let byId := fuseFold (fuseContrib semanticWeight semanticScores) semanticScores byId
  let merged := byId.map (fun p => ToolScore.mk p.1 p.2 "hybrid")
  (sortScores merged).take topK.toNat

/-- `GroupRoute` of `models.py`. -/
structure GroupRoute where
  group : String
  reason : String
  confidence : ℚ
deriving DecidableEq, Repr

/-- `HierarchicalRouter._get_record`: first record with the given id. -/
def getRecord (records : List ToolRecord) (id : String) : Option ToolRecord :=
  records.find? (fun r => r.tool_id == id)

/-- Python `max(items, key=lambda item: item[1])`: the first pair attaining
the maximal value (later pairs replace only on strictly greater value). -/
def pickMax : List (String × ℚ) → String × ℚ
  | [] => ("", 0)
  | p :: ps => ps.foldl (fun best q => if best.2 < q.2 then q else best) p

/-- Dict lookup on an insertion-ordered association list with unique keys. -/
def assocLookup (m : List (String × ℚ)) (k : String) : Option ℚ :=
  (m.find? (fun p => p.1 == k)).map (fun p => p.2)

/-- The unfiltered candidate search of `HierarchicalRouter.route_group`:
`self._retriever.search(query, groups=None, top_k=max(self.tool_top_k, 12))`. -/
def routerCandidates (logQ : ℚ → ℚ) (records : List ToolRecord)
    (toolTopK : Int) (query : String) : List ToolScore :=
  hybridSearch logQ records query none (max toolTopK 12)

/-- One step of the per-group accumulation loop of `route_group`: resolve
the candidate's record and add its score to that record's group. -/
def sbgStep (records : List ToolRecord) (m : List (String × ℚ))
    (c : ToolScore) : List (String × ℚ) :=
  match getRecord records c.tool_id with
  | some r => updAdd m r.group c.score
  | none => m

/-- The per-group accumulation loop of `route_group`. -/
def scoreByGroup (records : List ToolRecord) (candidates : List ToolScore) :
    List (String × ℚ) :=
  candidates.foldl (sbgStep records) []

/-- `HierarchicalRouter.route_group` of `router.py`. -/
def routeGroup (logQ : ℚ → ℚ) (records : List ToolRecord) (toolTopK : Int)
    (query : String) : GroupRoute :=
  let candidates := routerCandidates logQ records toolTopK query
  if candidates.isEmpty then GroupRoute.mk "other" "no matching tools" 0
  else
    let sbg := scoreByGroup records candidates
    if sbg.isEmpty then GroupRoute.mk "other" "empty score map" 0
    else
      let selectedGroup := (pickMax sbg).1
      let totalScore := (assocLookup sbg selectedGroup).getD 0
      let denom := (sbg.map (fun p => p.2)).sum
      let confidence := totalScore / (if denom = 0 then 1 else denom)
      GroupRoute.mk selectedGroup
        ("top aggregated score from " ++ toString candidates.length ++ " candidates")
        confidence

/-- `HierarchicalRouter.select_tools` of `router.py`. -/
def selectTools (logQ : ℚ → ℚ) (records : List ToolRecord) (toolTopK : Int)
    (query : String) (group : Option String) (topK : Option Int) : List ToolScore :=
  let selectedGroup :=
    match group with
    | some g => g
    | none => (routeGroup logQ records toolTopK query).group
  let limit := topK.getD toolTopK
  hybridSearch logQ records query (some [selectedGroup]) limit

/-- One entry of the `results` list built by `AgenticGateway.tool_search`. -/
structure SearchResult where
  tool_id : String
  name : String
  description : String
  group : String
  score : ℚ
  reason : String
deriving DecidableEq, Repr

/-- The response envelope of `AgenticGateway.tool_search`: either
`{success: false, message}` or `{success: true, query, route, results}`. -/
inductive SearchEnvelope where
  | failure (message : String)
  | success (query : String) (route : GroupRoute) (results : List SearchResult)
deriving DecidableEq, Repr

/-- `AgenticGateway._parse_group`: identity on the nine recognized group
names, `None` otherwise. -/
def parseGroup (group : Option String) : Option String :=
  match group with
  | none => none
  | some g => if groupNames.contains g then some g else none

/-- Python truthiness of the optional `group` argument (`if group and ...`):
present and non-empty. -/
def groupTruthy : Option String → Bool
  | none => false
  | some g => !(g == "")

/-- The `results` construction of `tool_search`: resolve each score's
record, dropping scores whose id is not in the registry. -/
def searchResults (records : List ToolRecord) (scores : List ToolScore) :
    List SearchResult :=
  scores.filterMap (fun s =>
    (getRecord records s.tool_id).map (fun r =>
      SearchResult.mk r.tool_id r.name r.description r.group s.score s.reason))

/-- `AgenticGateway.tool_search` of `gateway.py` after the registry is
ensured; the router is `HierarchicalRouter(registry)` with its default
`tool_top_k = 8`. -/
def toolSearch (logQ : ℚ → ℚ) (records : List ToolRecord) (query : String)
    (k : Int) (group : Option String) : SearchEnvelope :=
  let selectedGroup := parseGroup group
  if groupTruthy group && selectedGroup.isNone then
    SearchEnvelope.failure ("invalid group: " ++ group.getD "")
  else
    match selectedGroup with
    | some g =>
      let scores := selectTools logQ records 8 query (some g) (some k)
      SearchEnvelope.success query (GroupRoute.mk g "user_selected" 1)
        (searchResults records scores)
    | none =>
      let route := routeGroup logQ records 8 query
      let scores := selectTools logQ records 8 query (some route.group) (some k)
      SearchEnvelope.success query route (searchResults records scores)

/-- `_parse_intent` of `tool_only_agent.py`: ordered bilingual keyword
rules over the lowercased message. -/
def parseIntent (message : String) : String :=
  let lowered := pyLower message
  if ["status", "ping", "상태", "헬스"].any (fun t => strContains lowered t) then
    "status"
  else if ["capability", "capabilities", "지원", "가능"].any
      (fun t => strContains lowered t) then "capabilities"
  else if ["template", "템플릿", "양식"].any (fun t => strContains lowered t) then
    "template"
  else if ["export pdf", "pdf", "내보내기"].any (fun t => strContains lowered t) then
    "export_pdf"
  else if ["save", "저장"].any (fun t => strContains lowered t) then "save"
  else if ["find", "search", "찾기", "검색"].any (fun t => strContains lowered t) then
    "search"
  else if ["insert", "write", "작성", "추가", "입력"].any
      (fun t => strContains lowered t) then "insert_text"
  else if ["create", "new", "문서 생성", "새 문서", "만들"].any
      (fun t => strContains lowered t) then "create"
  else "unknown"

/-- `_detect_case` of `tool_only_agent.py`, as a function of the message
and the set of registered tool names (all checks are membership tests on
`set(tool_names)`). -/
def detectCase (message : String) (toolNames : List String) : String :=
  let lowered := pyLower message
  let hasWindows := toolNames.any (fun n => strStarts n "hwp_windows_")
  let hasTemplates := toolNames.contains "hwp_list_templates"
  let hasHwpx := toolNames.contains "hwp_create_hwpx"
  let hasDocOps := ["hwp_create", "hwp_insert_text", "hwp_save"].any
    (fun n => toolNames.contains n)
  let hasXmlOnly := !toolNames.isEmpty &&
    toolNames.all (fun n =>
      strContains n "xml" || strContains n "xpath" || strContains n "smart_patch")
  if (["template", "템플릿", "양식"].any (fun t => strContains lowered t)) &&
      hasTemplates then "template_workflow"
  else if hasWindows then "windows_com_full"
  else if hasXmlOnly then "query_analyze_only"
  else if hasHwpx then "cross_platform_hwpx"
  else if hasDocOps then "no_document_context"
  else "degraded_recovery"

/-- `ToolOnlyAgent._node_route`: map `(intent, case)` to a subagent. -/
def routeSubagent (intent caseName : String) : String :=
  if intent == "status" || intent == "capabilities" then "status_agent"
  else if intent == "template" || caseName == "template_workflow" then
    "template_agent"
  else if intent == "export_pdf" then "export_agent"
  else if intent == "search" then "search_agent"
  else if intent == "create" || intent == "insert_text" || intent == "save" then
    "document_agent"
  else "recovery_agent"

/-- Characters before the next occurrence of `delim`, or `none` when no
closing `delim` follows. -/
def upToNext (delim : Char) : List Char → Option (List Char)
  | [] => none
  | c :: rest =>
    if c = delim then some []
    else (upToNext delim rest).map (fun cs => c :: cs)

/-- `re.search` for the pattern `delim ([^delim]+) delim`: at each opening
delimiter, match up to the next one when at least one character lies
between, otherwise resume the scan after the opening delimiter. -/
def quotedSearch (delim : Char) : List Char → Option String
  | [] => none
  | c :: rest =>
    if c = delim then
      match upToNext delim rest with
      | some content =>
        if content.isEmpty then quotedSearch delim rest
        else some (String.mk content)
      | none => none
    else quotedSearch delim rest

/-- `_extract_quoted_text` of `tool_only_agent.py`: first double-quoted
span, then first single-quoted span, stripped. -/
def extractQuoted (message : String) : Option String :=
  match quotedSearch (Char.ofNat 34) message.data with
  | some s => some (pyStrip s)
  | none => (quotedSearch (Char.ofNat 39) message.data).map pyStrip

/-- Python truthiness of `_extract_quoted_text`'s result: a match whose
stripped text is non-empty. -/
def quotedTruthy (message : String) : Bool :=
  match extractQuoted message with
  | some t => !(t == "")
  | none => false

/-- Characters matched by the `_search_agent` token pattern `[\w가-힣]+`:
ASCII word characters and Hangul syllables.  (Python `\w` also matches
letters of other scripts; only these ranges are exercised here, and no
claim depends on the wider extension.) -/
def isWordChar (c : Char) : Bool :=
  (48 ≤ c.toNat && c.toNat ≤ 57) || (65 ≤ c.toNat && c.toNat ≤ 90) ||
  (97 ≤ c.toNat && c.toNat ≤ 122) || c.toNat = 95 ||
  (44032 ≤ c.toNat && c.toNat ≤ 55203)

/-- `re.findall(r"[\w가-힣]+", message)`. -/
def wordTokens (message : String) : List String :=
  runsAux isWordChar message.data []

/-- The keyword of `_search_agent`: quoted text, else the last token longer
than one character, else the empty string (which short-circuits with
`missing_search_keyword`). -/
def searchKeyword (message : String) : String :=
  let q := (extractQuoted message).getD ""
  if !(q == "") then q
  else
    let tokens := (wordTokens message).filter (fun t => 1 < t.length)
    (tokens.getLast?).getD ""

/-- The prioritized candidate tool names each subagent hands to
`_call_first_available`; empty when the subagent short-circuits without
selecting a tool (`recovery_agent`, keyword-less `search_agent`). -/
def subagentCandidates (subagent intent message : String) : List String :=
  if subagent == "status_agent" then
    if intent == "capabilities" then
      ["hwp_capabilities", "hwp_get_capabilities", "hwp_platform_info"]
    else ["hwp_ping", "hwp_platform_info", "hwp_capabilities"]
  else if subagent == "template_agent" then
    ["hwp_list_templates", "hwp_search_template"]
  else if subagent == "document_agent" then
    if intent == "create" then
      if quotedTruthy message then ["hwp_create_hwpx"] else ["hwp_create"]
    else if intent == "save" then ["hwp_save", "hwp_save_document"]
    else ["hwp_insert_text", "hwp_windows_insert_text"]
  else if subagent == "export_agent" then ["hwp_export_pdf", "hwp_save_as"]
  else if subagent == "search_agent" then
    if searchKeyword message == "" then [] else ["hwp_find", "hwp_search_text"]
  else []

/-- The tool `_call_first_available` selects: the first candidate present
in the registry (`tools_by_name.get(name)` is truthy exactly when the name
is registered, since every `tool_id` contains a colon). -/
def selectedToolName (subagent intent message : String)
    (toolNames : List String) : Option String :=
  (subagentCandidates subagent intent message).find? (fun n => toolNames.contains n)

/-- The classification-and-routing outcome of one `ToolOnlyAgent.run`:
the detected case, the parsed intent, the routed subagent, and the tool
selected by the subagent (when any). -/
structure AgentDecision where
  caseName : String
  intent : String
  subagent : String
  selectedTool : Option String
deriving DecidableEq, Repr

/-- The deterministic classification pipeline of `ToolOnlyAgent`:
`run` strips the message, `_node_classify` computes case and intent,
`_node_route` picks the subagent, and the subagent picks the first
available candidate tool. -/
def agentDecision (message : String) (toolNames : List String) : AgentDecision :=
  let m := pyStrip message
  let caseName := detectCase m toolNames
  let intent := parseIntent m
  let subagent := routeSubagent intent caseName
  AgentDecision.mk caseName intent subagent
    (selectedToolName subagent intent m toolNames)

/-- Lookup in a parsed JSON object (`payload.get(key)`); Python's JSON
parser keeps the last entry for a duplicated key. -/
def jsonGet (kvs : JsonObject) (key : String) : Option Json :=
  (kvs.reverse.find? (fun p => p.1 == key)).map (fun p => p.2)

/-- The control-flow outcome of `AgentHttpSurface.chat`:
the three validation failures, or running the agent on the validated
message and session id. -/
inductive ChatOutcome where
  | invalidJson
  | invalidPayload
  | messageRequired
  | runAgent (message : String) (sessionId : String)
deriving DecidableEq, Repr

/-- The validation logic of `AgentHttpSurface.chat` of `http_api.py`:
`none` stands for a body `request.json()` failed to parse. -/
def chatDecision (payload : Option Json) : ChatOutcome :=
  match payload with
  | none => ChatOutcome.invalidJson
  | some (Json.obj kvs) =>
    match jsonGet kvs "message" with
    | some (Json.str s) =>
      if pyStrip s == "" then ChatOutcome.messageRequired
      else
        let sessionId :=
          match (jsonGet kvs "session_id").getD (Json.str "") with
          | Json.str t => t
          | _ => ""
        ChatOutcome.runAgent s sessionId
    | _ => ChatOutcome.messageRequired
  | some _ => ChatOutcome.invalidPayload

/-- The HTTP status and JSON body `chat` returns on each validation
failure; the agent path returns the agent's projected state instead. -/
def chatErrorResponse : ChatOutcome → Option (Nat × List (String × Json))
  | ChatOutcome.invalidJson =>
    some (400, [("success", Json.bool false), ("error", Json.str "invalid_json")])
  | ChatOutcome.invalidPayload =>
    some (400, [("success", Json.bool false), ("error", Json.str "invalid_payload")])
  | ChatOutcome.messageRequired =>
    some (422, [("success", Json.bool false), ("error", Json.str "message_required")])
  | ChatOutcome.runAgent _ _ => none

section Theorems

attribute [local semireducible] Rat.add Rat.mul Rat.inv Rat.sub

/-- The Python string order is total. -/
theorem strLeChars_total : ∀ as bs : List Char,
    strLeChars as bs = true ∨ strLeChars bs as = true := by
  intro as
  induction as with
  | nil => intro bs; exact Or.inl rfl
  | cons a as ih =>
    intro bs
    cases bs with
    | nil => exact Or.inr rfl
    | cons b bs =>
      rcases Nat.lt_trichotomy a.toNat b.toNat with hlt | heq | hgt
      · exact Or.inl (by simp [strLeChars, hlt])
      · rcases ih bs with h | h
        · exact Or.inl (by simp [strLeChars, heq, h])
        · exact Or.inr (by simp [strLeChars, heq, h])
      · exact Or.inr (by simp [strLeChars, hgt])

/-- The Python string order is transitive. -/
theorem strLeChars_trans : ∀ as bs cs : List Char,
    strLeChars as bs = true → strLeChars bs cs = true →
    strLeChars as cs = true := by
  intro as
  induction as with
  | nil => intro bs cs _ _; rfl
  | cons a as ih =>
    intro bs cs h₁ h₂
    cases bs with
    | nil => simp [strLeChars] at h₁
    | cons b bs =>
      cases cs with
      | nil => simp [strLeChars] at h₂
      | cons c cs =>
        simp only [strLeChars, Bool.or_eq_true, Bool.and_eq_true,
          decide_eq_true_eq] at h₁ h₂ ⊢
        rcases h₁ with h₁ | ⟨he₁, hr₁⟩ <;> rcases h₂ with h₂ | ⟨he₂, hr₂⟩
        · exact Or.inl (by omega)
        · exact Or.inl (by omega)
        · exact Or.inl (by omega)
        · exact Or.inr ⟨by omega, ih bs cs hr₁ hr₂⟩

instance : IsTotal ToolRecord nameLE :=
  ⟨fun a b => strLeChars_total a.name.data b.name.data⟩

instance : IsTrans ToolRecord nameLE :=
  ⟨fun _ _ _ h₁ h₂ => strLeChars_trans _ _ _ h₁ h₂⟩

instance : IsTotal ToolScore scoreLE := by
  constructor
  intro a b
  rcases lt_trichotomy a.score b.score with h | h | h
  · exact Or.inr (Or.inl h)
  · rcases strLeChars_total a.tool_id.data b.tool_id.data with hs | hs
    · exact Or.inl (Or.inr ⟨h, hs⟩)
    · exact Or.inr (Or.inr ⟨h.symm, hs⟩)
  · exact Or.inl (Or.inl h)

instance : IsTrans ToolScore scoreLE := by
  constructor
  intro a b c h₁ h₂
  rcases h₁ with h₁ | ⟨he₁, hs₁⟩ <;> rcases h₂ with h₂ | ⟨he₂, hs₂⟩
  · exact Or.inl (lt_trans h₂ h₁)
  · exact Or.inl (by rw [he₂] at h₁; exact h₁)
  · exact Or.inl (by rw [he₁]; exact h₂)
  · exact Or.inr ⟨he₁.trans he₂, strLeChars_trans _ _ _ hs₁ hs₂⟩

/-- The retriever sort yields a list ordered by the Python sort key. -/
theorem sortScores_sorted (l : List ToolScore) :
    (sortScores l).Pairwise scoreLE :=
  List.sorted_insertionSort scoreLE l

/-- The retriever sort is a permutation of its input. -/
theorem sortScores_perm (l : List ToolScore) : (sortScores l).Perm l :=
  List.perm_insertionSort scoreLE l

/-- Membership is preserved by the retriever sort. -/
theorem mem_sortScores {x : ToolScore} {l : List ToolScore} :
    x ∈ sortScores l ↔ x ∈ l :=
  (sortScores_perm l).mem_iff

/-- The detected tag list is never empty. -/
theorem detectTags_ne_nil (toolName description : String) :
    detectTags toolName description ≠ [] := by
  by_cases h1 : strContains (pyLower (toolName ++ " " ++ description)) "windows" = true <;>
  by_cases h2 : (["xml", "xpath", "hwpx"].any fun t =>
    strContains (pyLower (toolName ++ " " ++ description)) t) = true <;>
  by_cases h3 : (["pdf", "html", "convert", "export"].any fun t =>
    strContains (pyLower (toolName ++ " " ++ description)) t) = true <;>
  simp [detectTags, h1, h2, h3]

/-- C8: for every tool name and description the detected tag tuple is
non-empty, and when none of the windows / xml / export keyword rules fires
it is exactly `["generic"]`. -/
theorem detectTags_nonempty_generic (toolName description : String) :
    detectTags toolName description ≠ [] ∧
    (strContains (pyLower (toolName ++ " " ++ description)) "windows" = false →
     (["xml", "xpath", "hwpx"].any fun t =>
       strContains (pyLower (toolName ++ " " ++ description)) t) = false →
     (["pdf", "html", "convert", "export"].any fun t =>
       strContains (pyLower (toolName ++ " " ++ description)) t) = false →
     detectTags toolName description = ["generic"]) := by
  refine ⟨detectTags_ne_nil toolName description, fun h1 h2 h3 => ?_⟩
  simp [detectTags, h1, h2, h3]

/-- Witness for C8 at a concrete tool with no keyword hit. -/
theorem detectTags_nonempty_generic_witness :
    detectTags "foo" "bar" ≠ [] ∧ detectTags "foo" "bar" = ["generic"] :=
  ⟨(detectTags_nonempty_generic "foo" "bar").1,
   (detectTags_nonempty_generic "foo" "bar").2 (by decide) (by decide) (by decide)⟩

/-- C1 (counterexample): `_convert_tool` does not fail on a name that is
empty after trimming; the source has no failure path (and no
`MalformedToolMeta` exists anywhere in the code base).  At the concrete
descriptor with name `"   "` it produces a full `ToolRecord` with empty
name. -/
theorem convertTool_empty_name_yields_record :
    pyStrip "   " = "" ∧
    (convertTool (fun _ _ _ => "h0") (ToolDump.mk "   " "" [] none)).name = "" ∧
    (convertTool (fun _ _ _ => "h0") (ToolDump.mk "   " "" [] none)).tool_id = ":h0" ∧
    (convertTool (fun _ _ _ => "h0") (ToolDump.mk "   " "" [] none)).tags = ["generic"] :=
  ⟨by decide, by decide, by decide, by decide⟩

/-- C1 (amended): a descriptor whose name is empty after trimming is still
converted; the resulting `ToolRecord` has the empty string as its name (and
a well-formed, non-empty tag list) instead of any failure. -/
theorem convertTool_empty_name_still_converts (h : StableHash) (d : ToolDump)
    (hname : pyStrip d.name = "") :
    (convertTool h d).name = "" ∧ (convertTool h d).tags ≠ [] := by
  constructor
  · simp [convertTool, hname]
  · simpa [convertTool] using
      detectTags_ne_nil (pyStrip d.name) (pyStrip d.description)

/-- Witness for the amended C1 at a concrete whitespace-only name. -/
theorem convertTool_empty_name_still_converts_witness :
    (convertTool (fun _ _ _ => "h1") (ToolDump.mk "  " " d " [] none)).name = "" ∧
    (convertTool (fun _ _ _ => "h1") (ToolDump.mk "  " " d " [] none)).tags ≠ [] :=
  convertTool_empty_name_still_converts _ _ (by decide)

/-- C7: `build_registry` returns exactly the converted records, sorted
non-decreasingly by `name`. -/
theorem buildRegistry_sorted_by_name (h : StableHash) (tools : List ToolDump) :
    (buildRegistry h tools).Pairwise nameLE ∧
    (buildRegistry h tools).Perm (tools.map (convertTool h)) :=
  ⟨List.sorted_insertionSort nameLE (tools.map (convertTool h)),
   List.perm_insertionSort nameLE (tools.map (convertTool h))⟩

/-- Whatever `lexicalScoreOf` emits has a positive score and the record's
own id. -/
theorem lexicalScoreOf_some {logQ : ℚ → ℚ} {records : List ToolRecord}
    {queryTerms : List String} {groups : Option (List String)}
    {r : ToolRecord} {s : ToolScore}
    (heq : lexicalScoreOf logQ records queryTerms groups r = some s) :
    0 < s.score ∧ s.tool_id = r.tool_id := by
  unfold lexicalScoreOf at heq
  split at heq
  · exact absurd heq (by simp)
  · dsimp only at heq
    split at heq
    · rename_i hpos
      have hmk := Option.some.inj heq
      subst hmk
      exact ⟨hpos, rfl⟩
    · exact absurd heq (by simp)

/-- Whatever `semanticScoreOf` emits has a positive score and the record's
own id. -/
theorem semanticScoreOf_some {queryTokens : List String}
    {groups : Option (List String)} {r : ToolRecord} {s : ToolScore}
    (heq : semanticScoreOf queryTokens groups r = some s) :
    0 < s.score ∧ s.tool_id = r.tool_id := by
  unfold semanticScoreOf at heq
  split at heq
  · exact absurd heq (by simp)
  · dsimp only at heq
    split at heq
    · exact absurd heq (by simp)
    · split at heq <;>
        (split at heq
         · rename_i hpos
           have hmk := Option.some.inj heq
           subst hmk
           exact ⟨hpos, rfl⟩
         · exact absurd heq (by simp))

/-- Every score emitted by the lexical filter loop is positive and carries
the id of some record of the registry. -/
theorem lexicalSearch_mem {logQ : ℚ → ℚ} {records : List ToolRecord}
    {query : String} {groups : Option (List String)} {topK : Int} {s : ToolScore}
    (hs : s ∈ lexicalSearch logQ records query groups topK) :
    0 < s.score ∧ ∃ r ∈ records, s.tool_id = r.tool_id := by
  unfold lexicalSearch at hs
  split at hs
  · simp at hs
  · have hs₁ := List.take_subset _ _ hs
    rw [mem_sortScores] at hs₁
    obtain ⟨r, hr, heq⟩ := List.mem_filterMap.mp hs₁
    obtain ⟨hpos, hid⟩ := lexicalScoreOf_some heq
    exact ⟨hpos, r, hr, hid⟩

/-- Every score emitted by the semantic filter loop is positive and carries
the id of some record of the registry. -/
theorem semanticSearch_mem {records : List ToolRecord} {query : String}
    {groups : Option (List String)} {topK : Int} {s : ToolScore}
    (hs : s ∈ semanticSearch records query groups topK) :
    0 < s.score ∧ ∃ r ∈ records, s.tool_id = r.tool_id := by
  unfold semanticSearch at hs
  split at hs
  · simp at hs
  · have hs₁ := List.take_subset _ _ hs
    rw [mem_sortScores] at hs₁
    obtain ⟨r, hr, heq⟩ := List.mem_filterMap.mp hs₁
    obtain ⟨hpos, hid⟩ := semanticScoreOf_some heq
    exact ⟨hpos, r, hr, hid⟩

/-- A `filterMap` that maps each record to at most one score tagged with
the record's own id preserves distinctness of ids. -/
theorem filterMap_ids_nodup (records : List ToolRecord)
    (f : ToolRecord → Option ToolScore)
    (hf : ∀ r s, f r = some s → s.tool_id = r.tool_id)
    (hnd : (records.map ToolRecord.tool_id).Nodup) :
    ((records.filterMap f).map ToolScore.tool_id).Nodup := by
  induction records with
  | nil => simp
  | cons r rs ih =>
    simp only [List.map_cons, List.nodup_cons] at hnd
    obtain ⟨hr, hnd⟩ := hnd
    rw [List.filterMap_cons]
    cases hfr : f r with
    | none => exact ih hnd
    | some s =>
      simp only [List.map_cons, List.nodup_cons]
      refine ⟨?_, ih hnd⟩
      intro hmem
      rw [hf r s hfr] at hmem
      apply hr
      obtain ⟨x, hx, hid⟩ := List.mem_map.mp hmem
      obtain ⟨q, hq, hfq⟩ := List.mem_filterMap.mp hx
      exact List.mem_map.mpr ⟨q, hq, by rw [← hf q x hfq, hid]⟩

/-- When the registry's ids are pairwise distinct, so are the ids of the
lexical result list. -/
theorem lexicalSearch_ids_nodup {logQ : ℚ → ℚ} {records : List ToolRecord}
    {query : String} {groups : Option (List String)} {topK : Int}
    (hnd : (records.map ToolRecord.tool_id).Nodup) :
    ((lexicalSearch logQ records query groups topK).map ToolScore.tool_id).Nodup := by
  unfold lexicalSearch
  split
  · simp
  · have h₁ := filterMap_ids_nodup records
      (lexicalScoreOf logQ records (tokenize query).eraseDups groups)
      (fun r s heq => (lexicalScoreOf_some heq).2) hnd
    have h₂ := ((sortScores_perm _).map ToolScore.tool_id).nodup_iff.mpr h₁
    rw [List.map_take]
    exact List.Nodup.sublist (List.take_sublist _ _) h₂

/-- When the registry's ids are pairwise distinct, so are the ids of the
semantic result list. -/
theorem semanticSearch_ids_nodup {records : List ToolRecord} {query : String}
    {groups : Option (List String)} {topK : Int}
    (hnd : (records.map ToolRecord.tool_id).Nodup) :
    ((semanticSearch records query groups topK).map ToolScore.tool_id).Nodup := by
  unfold semanticSearch
  split
  · simp
  · have h₁ := filterMap_ids_nodup records
      (semanticScoreOf (tokenize query).eraseDups groups)
      (fun r s heq => (semanticScoreOf_some heq).2) hnd
    have h₂ := ((sortScores_perm _).map ToolScore.tool_id).nodup_iff.mpr h₁
    rw [List.map_take]
    exact List.Nodup.sublist (List.take_sublist _ _) h₂

/-- C5: the lexical (BM25) search emits only strictly positive scores,
sorted descending by score with ties broken by ascending `tool_id`,
truncated to at most `top_k` results, and returns the empty list whenever
`top_k ≤ 0`. -/
theorem lexicalSearch_spec (logQ : ℚ → ℚ) (records : List ToolRecord)
    (query : String) (groups : Option (List String)) (topK : Int) :
    (∀ s ∈ lexicalSearch logQ records query groups topK, 0 < s.score) ∧
    (lexicalSearch logQ records query groups topK).Pairwise scoreLE ∧
    (lexicalSearch logQ records query groups topK).length ≤ topK.toNat ∧
    (topK ≤ 0 → lexicalSearch logQ records query groups topK = []) := by
  refine ⟨fun s hs => (lexicalSearch_mem hs).1, ?_, ?_, ?_⟩
  · unfold lexicalSearch
    split
    · simp
    · exact List.Pairwise.sublist (List.take_sublist _ _) (sortScores_sorted _)
  · unfold lexicalSearch
    split
    · simp
    · exact List.length_take_le _ _
  · intro hk
    unfold lexicalSearch
    rw [if_pos hk]

/-- Records and the constant log stand-in used by the concrete witnesses. -/
def sampleRecord : ToolRecord :=
  ToolRecord.mk "t:h" "a" "" [] none "other" ["g"] "h"

/-- A concrete instantiation of the uninterpreted `math.log` parameter. -/
def logConst : ℚ → ℚ := fun _ => 1

/-- Witness for C5 at a one-record registry and at a nonpositive `top_k`. -/
theorem lexicalSearch_spec_witness :
    0 < (ToolScore.mk "t:h" 1 "lexical").score ∧
    (lexicalSearch logConst [sampleRecord] "a" none 12).Pairwise scoreLE ∧
    (lexicalSearch logConst [sampleRecord] "a" none 12).length ≤ (12 : Int).toNat ∧
    lexicalSearch logConst [sampleRecord] "a" none (-1) = [] :=
  ⟨(lexicalSearch_spec logConst [sampleRecord] "a" none 12).1 _ (by decide),
   (lexicalSearch_spec logConst [sampleRecord] "a" none 12).2.1,
   (lexicalSearch_spec logConst [sampleRecord] "a" none 12).2.2.1,
   (lexicalSearch_spec logConst [sampleRecord] "a" none (-1)).2.2.2 (by decide)⟩

/-- Characterization of dict update: an entry of `updAdd m id v` is an
untouched entry of `m` with another key, an entry of `m` with key `id`
increased by `v`, or the fresh entry `(id, v)` when `id` was absent. -/
theorem mem_updAdd {m : List (String × ℚ)} {id : String} {v : ℚ}
    {p : String × ℚ} (hp : p ∈ updAdd m id v) :
    (p ∈ m ∧ p.1 ≠ id) ∨ (∃ q ∈ m, q.1 = id ∧ p = (q.1, q.2 + v)) ∨
    (p = (id, v) ∧ ∀ q ∈ m, q.1 ≠ id) := by
  unfold updAdd at hp
  split at hp
  · obtain ⟨q, hq, heq⟩ := List.mem_map.mp hp
    by_cases hqid : (q.1 == id) = true
    · rw [if_pos hqid] at heq
      exact Or.inr (Or.inl ⟨q, hq, eq_of_beq hqid, heq.symm⟩)
    · rw [if_neg hqid] at heq
      subst heq
      exact Or.inl ⟨hq, by simpa using hqid⟩
  · rename_i hany
    rcases List.mem_append.mp hp with h | h
    · refine Or.inl ⟨h, fun hid => ?_⟩
      exact hany (List.any_eq_true.mpr ⟨p, h, by simp [hid]⟩)
    · simp only [List.mem_singleton] at h
      refine Or.inr (Or.inr ⟨h, fun q hq hid => ?_⟩)
      exact hany (List.any_eq_true.mpr ⟨q, hq, by simp [hid]⟩)

/-- Keys of `updAdd m id v` come from `m` or are `id` itself. -/
theorem mem_keys_updAdd {m : List (String × ℚ)} {id : String} {v : ℚ}
    {x : String} (hx : x ∈ (updAdd m id v).map Prod.fst) :
    x ∈ m.map Prod.fst ∨ x = id := by
  obtain ⟨p, hp, rfl⟩ := List.mem_map.mp hx
  rcases mem_updAdd hp with ⟨hq, _⟩ | ⟨q, hq, _, rfl⟩ | ⟨rfl, _⟩
  · exact Or.inl (List.mem_map_of_mem _ hq)
  · exact Or.inl (List.mem_map.mpr ⟨q, hq, rfl⟩)
  · exact Or.inr rfl

/-- `updAdd` preserves distinctness of dict keys. -/
theorem updAdd_keys_nodup {m : List (String × ℚ)} {id : String} {v : ℚ}
    (h : (m.map Prod.fst).Nodup) : ((updAdd m id v).map Prod.fst).Nodup := by
  unfold updAdd
  split
  · have heq : ((m.map fun p => if p.1 == id then (p.1, p.2 + v) else p).map Prod.fst) =
        m.map Prod.fst := by
      rw [List.map_map]
      refine List.map_congr_left fun p _ => ?_
      by_cases hc : (p.1 == id) = true <;> simp [hc, Function.comp]
    rw [heq]
    exact h
  · rename_i hany
    rw [List.map_append]
    refine List.nodup_append.mpr ⟨h, List.nodup_singleton _, fun x hx hx₂ => ?_⟩
    simp only [List.map_cons, List.map_nil, List.mem_singleton] at hx₂
    subst hx₂
    obtain ⟨p, hp, hpid⟩ := List.mem_map.mp hx
    exact hany (List.any_eq_true.mpr ⟨p, hp, by simp [hpid]⟩)

/-- A fusion loop over positive contributions keeps every dict value
positive. -/
theorem fuseFold_pos (f : String → ℚ) :
    ∀ (l : List ToolScore) (m : List (String × ℚ)),
      (∀ s ∈ l, 0 < f s.tool_id) → (∀ p ∈ m, 0 < p.2) →
      ∀ p ∈ fuseFold f l m, 0 < p.2 := by
  intro l
  induction l with
  | nil => intro m _ hm p hp; exact hm p hp
  | cons s t ih =>
    intro m hf hm
    have hstep : ∀ p ∈ updAdd m s.tool_id (f s.tool_id), 0 < p.2 := by
      intro p hp
      rcases mem_updAdd hp with ⟨hq, _⟩ | ⟨q, hq, _, rfl⟩ | ⟨rfl, _⟩
      · exact hm p hq
      · exact add_pos (hm q hq) (hf s (List.mem_cons_self s t))
      · exact hf s (List.mem_cons_self s t)
    exact ih _ (fun x hx => hf x (List.mem_cons_of_mem s hx)) hstep

/-- The invariant run of a fusion loop: starting from a dict whose values
are below `base` on the ids the loop will touch (and below `base + cap`
everywhere), adding one contribution of size at most `cap` per distinct id
keeps every value within `[0, base + cap]`. -/
theorem fuseFold_le (cap base : ℚ) (hbase : 0 ≤ base) (f : String → ℚ) :
    ∀ (l : List ToolScore) (m : List (String × ℚ)),
      (∀ s ∈ l, 0 ≤ f s.tool_id ∧ f s.tool_id ≤ cap) →
      ((l.map ToolScore.tool_id).Nodup) →
      (∀ p ∈ m, 0 ≤ p.2 ∧ (p.1 ∈ l.map ToolScore.tool_id → p.2 ≤ base) ∧
        p.2 ≤ base + cap) →
      ∀ p ∈ fuseFold f l m, 0 ≤ p.2 ∧ p.2 ≤ base + cap := by
  intro l
  induction l with
  | nil => intro m _ _ hm p hp; exact ⟨(hm p hp).1, (hm p hp).2.2⟩
  | cons s t ih =>
    intro m hf hnd hm
    simp only [List.map_cons, List.nodup_cons] at hnd
    obtain ⟨hsid, hndt⟩ := hnd
    have hfs := hf s (List.mem_cons_self s t)
    refine ih _ (fun x hx => hf x (List.mem_cons_of_mem s hx)) hndt ?_
    intro p hp
    rcases mem_updAdd hp with ⟨hq, _⟩ | ⟨q, hq, hqid, rfl⟩ | ⟨rfl, _⟩
    · obtain ⟨h0, hcond, hcap⟩ := hm p hq
      exact ⟨h0, fun hmem => hcond (by simp [hmem]), hcap⟩
    · obtain ⟨h0, hcond, _⟩ := hm q hq
      have hqb : q.2 ≤ base := hcond (by simp [hqid])
      refine ⟨add_nonneg h0 hfs.1, fun hmem => ?_, add_le_add hqb hfs.2⟩
      exact absurd (hqid ▸ hmem) hsid
    · refine ⟨hfs.1, fun hmem => absurd hmem hsid, ?_⟩
      linarith [hfs.2]

/-- Keys of a fusion loop's result come from the start dict or from the
looped score list. -/
theorem fuseFold_keys_sub (f : String → ℚ) :
    ∀ (l : List ToolScore) (m : List (String × ℚ)) (p : String × ℚ),
      p ∈ fuseFold f l m →
      p.1 ∈ m.map Prod.fst ∨ p.1 ∈ l.map ToolScore.tool_id := by
  intro l
  induction l with
  | nil => intro m p hp; exact Or.inl (List.mem_map_of_mem _ hp)
  | cons s t ih =>
    intro m p hp
    rcases ih _ p hp with h | h
    · rcases mem_keys_updAdd h with h₂ | h₂
      · exact Or.inl h₂
      · exact Or.inr (by simp [h₂])
    · exact Or.inr (by simp [h])

/-- A fusion loop preserves distinctness of dict keys. -/
theorem fuseFold_keys_nodup (f : String → ℚ) :
    ∀ (l : List ToolScore) (m : List (String × ℚ)),
      (m.map Prod.fst).Nodup → ((fuseFold f l m).map Prod.fst).Nodup := by
  intro l
  induction l with
  | nil => intro m h; exact h
  | cons s t ih => intro m h; exact ih _ (updAdd_keys_nodup h)

/-- Bounds on the fold that computes the Python `max(..., default=0.0)`. -/
theorem foldl_max_ge_init (ys : List ToolScore) :
    ∀ a : ℚ, a ≤ ys.foldl (fun m y => max m y.score) a := by
  induction ys with
  | nil => intro a; exact le_refl a
  | cons y ys ih =>
    intro a
    exact le_trans (le_max_left a y.score) (ih (max a y.score))

/-- Every scanned score is below the running maximum. -/
theorem foldl_max_ge_mem :
    ∀ {ys : List ToolScore} {x : ToolScore}, x ∈ ys →
      ∀ a : ℚ, x.score ≤ ys.foldl (fun m y => max m y.score) a := by
  intro ys
  induction ys with
  | nil => intro x hx; simp at hx
  | cons y ys ih =>
    intro x hx a
    rcases List.mem_cons.mp hx with rfl | hx
    · exact le_trans (le_max_right a x.score) (foldl_max_ge_init ys _)
    · exact ih hx _

/-- `maxScoreOf` dominates every member of the list. -/
theorem maxScoreOf_ge {scores : List ToolScore} {x : ToolScore}
    (hx : x ∈ scores) : x.score ≤ maxScoreOf scores := by
  cases scores with
  | nil => simp at hx
  | cons y ys =>
    rcases List.mem_cons.mp hx with rfl | hx
    · exact foldl_max_ge_init ys x.score
    · exact foldl_max_ge_mem hx y.score

/-- Over a list of positive scores, the normalized value of a member's id
is positive. -/
theorem normGet_pos (scores : List ToolScore)
    (hpos : ∀ s ∈ scores, 0 < s.score) {s : ToolScore} (hs : s ∈ scores) :
    0 < normGet scores (maxScoreOf scores) s.tool_id := by
  unfold normGet
  cases hf : scores.reverse.find? (fun x => x.tool_id == s.tool_id) with
  | none =>
    exfalso
    have := List.find?_eq_none.mp hf s (List.mem_reverse.mpr hs)
    simp at this
  | some x =>
    have hx : x ∈ scores := List.mem_reverse.mp (List.mem_of_find?_eq_some hf)
    have hmax : 0 < maxScoreOf scores :=
      lt_of_lt_of_le (hpos s hs) (maxScoreOf_ge hs)
    dsimp only
    rw [if_neg (not_le.mpr hmax)]
    exact div_pos (hpos x hx) hmax

/-- Over a list of positive scores, every normalized value lies in `[0, 1]`. -/
theorem normGet_bounds (scores : List ToolScore)
    (hpos : ∀ s ∈ scores, 0 < s.score) (id : String) :
    0 ≤ normGet scores (maxScoreOf scores) id ∧
    normGet scores (maxScoreOf scores) id ≤ 1 := by
  unfold normGet
  cases hf : scores.reverse.find? (fun x => x.tool_id == id) with
  | none => simp
  | some x =>
    have hx : x ∈ scores := List.mem_reverse.mp (List.mem_of_find?_eq_some hf)
    have hxpos := hpos x hx
    have hmax : 0 < maxScoreOf scores := lt_of_lt_of_le hxpos (maxScoreOf_ge hx)
    dsimp only
    rw [if_neg (not_le.mpr hmax)]
    exact ⟨div_nonneg hxpos.le hmax.le, (div_le_one hmax).mpr (maxScoreOf_ge hx)⟩

/-- A member's weighted normalized contribution is positive for a positive
weight. -/
theorem fuseContrib_pos_mem (w : ℚ) (hw : 0 < w) (scores : List ToolScore)
    (hpos : ∀ s ∈ scores, 0 < s.score) {s : ToolScore} (hs : s ∈ scores) :
    0 < fuseContrib w scores s.tool_id :=
  mul_pos hw (normGet_pos scores hpos hs)

/-- A weighted normalized contribution lies in `[0, w]`. -/
theorem fuseContrib_bounds (w : ℚ) (hw : 0 ≤ w) (scores : List ToolScore)
    (hpos : ∀ s ∈ scores, 0 < s.score) (id : String) :
    0 ≤ fuseContrib w scores id ∧ fuseContrib w scores id ≤ w := by
  obtain ⟨h0, h1⟩ := normGet_bounds scores hpos id
  exact ⟨mul_nonneg hw h0, mul_le_of_le_one_right hw h1⟩

/-- Every score the hybrid fusion emits is strictly positive. -/
theorem hybridSearch_mem_pos {logQ : ℚ → ℚ} {records : List ToolRecord}
    {query : String} {groups : Option (List String)} {topK : Int}
    {s : ToolScore} (hs : s ∈ hybridSearch logQ records query groups topK) :
    0 < s.score := by
  unfold hybridSearch at hs
  dsimp only at hs
  have hs₁ := List.take_subset _ _ hs
  rw [mem_sortScores] at hs₁
  obtain ⟨p, hp, rfl⟩ := List.mem_map.mp hs₁
  refine fuseFold_pos _ _ _
    (fun x hx => fuseContrib_pos_mem semanticWeight (by norm_num [semanticWeight]) _
      (fun y hy => (semanticSearch_mem hy).1) hx) ?_ p hp
  exact fuseFold_pos _ _ _
    (fun x hx => fuseContrib_pos_mem lexicalWeight (by norm_num [lexicalWeight]) _
      (fun y hy => (lexicalSearch_mem hy).1) hx) (by simp)

/-- The hybrid fusion emits each `tool_id` at most once. -/
theorem hybridSearch_ids_nodup (logQ : ℚ → ℚ) (records : List ToolRecord)
    (query : String) (groups : Option (List String)) (topK : Int) :
    ((hybridSearch logQ records query groups topK).map ToolScore.tool_id).Nodup := by
  unfold hybridSearch
  dsimp only
  have hk := fuseFold_keys_nodup
    (fuseContrib semanticWeight
      (semanticSearch records query groups (max (topK * 3) topK)))
    (semanticSearch records query groups (max (topK * 3) topK))
    (fuseFold
      (fuseContrib lexicalWeight
        (lexicalSearch logQ records query groups (max (topK * 3) topK)))
      (lexicalSearch logQ records query groups (max (topK * 3) topK)) [])
    (fuseFold_keys_nodup _ _ [] (by simp))
  have hmm : ∀ byId : List (String × ℚ),
      ((byId.map fun p => ToolScore.mk p.1 p.2 "hybrid").map ToolScore.tool_id) =
        byId.map Prod.fst := by
    intro byId
    rw [List.map_map]
    rfl
  rw [List.map_take]
  refine List.Nodup.sublist (List.take_sublist _ _) ?_
  refine (((sortScores_perm _).map ToolScore.tool_id).nodup_iff).mpr ?_
  rw [hmm]
  exact hk

/-- Every id the hybrid fusion emits belongs to some record of the
registry. -/
theorem hybridSearch_mem_id {logQ : ℚ → ℚ} {records : List ToolRecord}
    {query : String} {groups : Option (List String)} {topK : Int}
    {s : ToolScore} (hs : s ∈ hybridSearch logQ records query groups topK) :
    ∃ r ∈ records, s.tool_id = r.tool_id := by
  unfold hybridSearch at hs
  dsimp only at hs
  have hs₁ := List.take_subset _ _ hs
  rw [mem_sortScores] at hs₁
  obtain ⟨p, hp, rfl⟩ := List.mem_map.mp hs₁
  rcases fuseFold_keys_sub _ _ _ p hp with h | h
  · obtain ⟨q, hq, hqid⟩ := List.mem_map.mp h
    rcases fuseFold_keys_sub _ _ _ q hq with h₂ | h₂
    · simp at h₂
    · obtain ⟨x, hx, hxid⟩ := List.mem_map.mp h₂
      obtain ⟨_, r, hr, hid⟩ := lexicalSearch_mem hx
      exact ⟨r, hr, by rw [← hqid, ← hxid]; exact hid⟩
  · obtain ⟨x, hx, hxid⟩ := List.mem_map.mp h
    obtain ⟨_, r, hr, hid⟩ := semanticSearch_mem hx
    exact ⟨r, hr, by rw [← hxid]; exact hid⟩

/-- C10: every score the hybrid fusion returns is strictly positive, and
the returned `tool_id`s are pairwise distinct (the fused dict has one
entry per id). -/
theorem hybridSearch_pos_nodup (logQ : ℚ → ℚ) (records : List ToolRecord)
    (query : String) (groups : Option (List String)) (topK : Int) :
    (∀ s ∈ hybridSearch logQ records query groups topK, 0 < s.score) ∧
    ((hybridSearch logQ records query groups topK).map ToolScore.tool_id).Nodup :=
  ⟨fun _ hs => hybridSearch_mem_pos hs,
   hybridSearch_ids_nodup logQ records query groups topK⟩

/-- Witness for C10 at a one-record registry. -/
theorem hybridSearch_pos_nodup_witness :
    0 < (ToolScore.mk "t:h" 1 "hybrid").score ∧
    ((hybridSearch logConst [sampleRecord] "a" none 12).map ToolScore.tool_id).Nodup :=
  ⟨(hybridSearch_pos_nodup logConst [sampleRecord] "a" none 12).1 _ (by decide),
   (hybridSearch_pos_nodup logConst [sampleRecord] "a" none 12).2⟩

/-- C4 (counterexample): on a registry that lists the same tool twice (so
two records share one `tool_id`, which `build_registry` produces when the
backend reports a duplicate), the fusion loop adds each side's weighted
contribution twice and the fused score reaches `2`, outside
`[0, wL + wS] = [0, 1]`. -/
theorem hybridSearch_exceeds_one_on_duplicate_ids :
    hybridSearch logConst [sampleRecord, sampleRecord] "a" none 1 =
      [ToolScore.mk "t:h" 2 "hybrid"] ∧
    ¬ ((2 : ℚ) ≤ lexicalWeight + semanticWeight) :=
  ⟨by decide, by decide⟩

/-- C4 (amended): when the registry's `tool_id`s are pairwise distinct (the
data-model invariant), every fused score lies in
`[0, wL + wS] = [0, 1]` for the default weights. -/
theorem hybridSearch_score_bounds (logQ : ℚ → ℚ) (records : List ToolRecord)
    (query : String) (groups : Option (List String)) (topK : Int)
    (hnd : (records.map ToolRecord.tool_id).Nodup) :
    ∀ s ∈ hybridSearch logQ records query groups topK,
      0 ≤ s.score ∧ s.score ≤ lexicalWeight + semanticWeight := by
  unfold hybridSearch
  dsimp only
  intro s hs
  have hs₁ := List.take_subset _ _ hs
  rw [mem_sortScores] at hs₁
  obtain ⟨p, hp, rfl⟩ := List.mem_map.mp hs₁
  have hlexpos : ∀ y ∈ lexicalSearch logQ records query groups (max (topK * 3) topK),
      0 < y.score := fun y hy => (lexicalSearch_mem hy).1
  have hsempos : ∀ y ∈ semanticSearch records query groups (max (topK * 3) topK),
      0 < y.score := fun y hy => (semanticSearch_mem hy).1
  have h1 := fuseFold_le lexicalWeight 0 (le_refl 0)
    (fuseContrib lexicalWeight
      (lexicalSearch logQ records query groups (max (topK * 3) topK)))
    (lexicalSearch logQ records query groups (max (topK * 3) topK)) []
    (fun x _ => fuseContrib_bounds lexicalWeight (by norm_num [lexicalWeight]) _ hlexpos x.tool_id)
    (lexicalSearch_ids_nodup hnd) (by simp)
  have h2 := fuseFold_le semanticWeight lexicalWeight (by norm_num [lexicalWeight])
    (fuseContrib semanticWeight
      (semanticSearch records query groups (max (topK * 3) topK)))
    (semanticSearch records query groups (max (topK * 3) topK)) _
    (fun x _ => fuseContrib_bounds semanticWeight (by norm_num [semanticWeight]) _ hsempos x.tool_id)
    (semanticSearch_ids_nodup hnd)
    (fun q hq => ⟨(h1 q hq).1, fun _ => by linarith [(h1 q hq).2],
      by
        have hA := (h1 q hq).2
        norm_num [lexicalWeight, semanticWeight] at hA ⊢
        linarith⟩)
  exact h2 p hp

/-- Witness for the amended C4 at a duplicate-free one-record registry. -/
theorem hybridSearch_score_bounds_witness :
    0 ≤ (ToolScore.mk "t:h" 1 "hybrid").score ∧
    (ToolScore.mk "t:h" 1 "hybrid").score ≤ lexicalWeight + semanticWeight :=
  hybridSearch_score_bounds logConst [sampleRecord] "a" none 1 (by decide) _
    (by decide)

/-- A dict update never produces the empty dict. -/
theorem updAdd_ne_nil (m : List (String × ℚ)) (id : String) (v : ℚ) :
    updAdd m id v ≠ [] := by
  unfold updAdd
  split
  · rename_i hany
    intro hnil
    rw [List.map_eq_nil_iff] at hnil
    subst hnil
    simp at hany
  · intro hnil
    simp at hnil

/-- One accumulation step keeps the group dict non-empty. -/
theorem sbgStep_ne_nil {records : List ToolRecord} {m : List (String × ℚ)}
    {c : ToolScore} (hm : m ≠ []) : sbgStep records m c ≠ [] := by
  unfold sbgStep
  split
  · exact updAdd_ne_nil _ _ _
  · exact hm

/-- The accumulation loop keeps the group dict non-empty. -/
theorem foldl_sbgStep_ne_nil {records : List ToolRecord} :
    ∀ (t : List ToolScore) (m : List (String × ℚ)), m ≠ [] →
      t.foldl (sbgStep records) m ≠ [] := by
  intro t
  induction t with
  | nil => intro m hm; exact hm
  | cons c t ih => intro m hm; exact ih _ (sbgStep_ne_nil hm)

/-- When every candidate's id resolves to a record, a non-empty candidate
list accumulates a non-empty group dict. -/
theorem scoreByGroup_ne_nil {records : List ToolRecord}
    {candidates : List ToolScore} (hne : candidates ≠ [])
    (hres : ∀ c ∈ candidates, ∃ r ∈ records, c.tool_id = r.tool_id) :
    scoreByGroup records candidates ≠ [] := by
  cases candidates with
  | nil => exact absurd rfl hne
  | cons c t =>
    unfold scoreByGroup
    rw [List.foldl_cons]
    apply foldl_sbgStep_ne_nil
    obtain ⟨r, hr, hid⟩ := hres c (List.mem_cons_self c t)
    have hsome : (getRecord records c.tool_id).isSome := by
      unfold getRecord
      exact List.find?_isSome.mpr ⟨r, hr, by simp [hid]⟩
    obtain ⟨r₂, hg⟩ := Option.isSome_iff_exists.mp hsome
    unfold sbgStep
    rw [hg]
    exact updAdd_ne_nil _ _ _

/-- One accumulation step keeps every dict value positive. -/
theorem sbgStep_pos {records : List ToolRecord} {m : List (String × ℚ)}
    {c : ToolScore} (hm : ∀ p ∈ m, 0 < p.2) (hc : 0 < c.score) :
    ∀ p ∈ sbgStep records m c, 0 < p.2 := by
  unfold sbgStep
  split
  · intro p hp
    rcases mem_updAdd hp with ⟨hq, _⟩ | ⟨q, hq, _, rfl⟩ | ⟨rfl, _⟩
    · exact hm p hq
    · exact add_pos (hm q hq) hc
    · exact hc
  · exact hm

/-- The accumulation loop keeps every dict value positive. -/
theorem foldl_sbgStep_pos {records : List ToolRecord} :
    ∀ (t : List ToolScore) (m : List (String × ℚ)),
      (∀ c ∈ t, 0 < c.score) → (∀ p ∈ m, 0 < p.2) →
      ∀ p ∈ t.foldl (sbgStep records) m, 0 < p.2 := by
  intro t
  induction t with
  | nil => intro m _ hm; exact hm
  | cons c t ih =>
    intro m hc hm
    exact ih _ (fun x hx => hc x (List.mem_cons_of_mem c hx))
      (sbgStep_pos hm (hc c (List.mem_cons_self c t)))

/-- Every accumulated per-group score is positive when every candidate
score is. -/
theorem scoreByGroup_pos (records : List ToolRecord)
    {candidates : List ToolScore} (hc : ∀ c ∈ candidates, 0 < c.score) :
    ∀ p ∈ scoreByGroup records candidates, 0 < p.2 :=
  foldl_sbgStep_pos candidates [] hc (by simp)

/-- The running Python `max(..., key=item[1])` stays inside the scanned
list. -/
theorem foldl_pick_mem :
    ∀ (ps : List (String × ℚ)) (p : String × ℚ),
      ps.foldl (fun best q => if best.2 < q.2 then q else best) p ∈ p :: ps := by
  intro ps
  induction ps with
  | nil => intro p; exact List.mem_cons_self _ _
  | cons q qs ih =>
    intro p
    simp only [List.foldl_cons]
    rcases List.mem_cons.mp (ih (if p.2 < q.2 then q else p)) with h | h
    · rw [h]
      split
      · exact List.mem_cons_of_mem _ (List.mem_cons_self _ _)
      · exact List.mem_cons_self _ _
    · exact List.mem_cons_of_mem _ (List.mem_cons_of_mem _ h)

/-- `pickMax` of a non-empty dict is one of its entries. -/
theorem pickMax_mem {m : List (String × ℚ)} (hm : m ≠ []) : pickMax m ∈ m := by
  cases m with
  | nil => exact absurd rfl hm
  | cons p ps => exact foldl_pick_mem ps p

/-- C2: whenever the router's unfiltered hybrid search returns at least one
candidate, `route_group`'s confidence lies in `(0, 1]`; with no candidate
it returns the group `other` with confidence `0`. -/
theorem routeGroup_confidence_bounds (logQ : ℚ → ℚ)
    (records : List ToolRecord) (toolTopK : Int) (query : String) :
    (routerCandidates logQ records toolTopK query ≠ [] →
      0 < (routeGroup logQ records toolTopK query).confidence ∧
      (routeGroup logQ records toolTopK query).confidence ≤ 1) ∧
    (routerCandidates logQ records toolTopK query = [] →
      routeGroup logQ records toolTopK query =
        GroupRoute.mk "other" "no matching tools" 0) := by
  constructor
  · intro hne
    have hres : ∀ c ∈ routerCandidates logQ records toolTopK query,
        ∃ r ∈ records, c.tool_id = r.tool_id :=
      fun c hc => hybridSearch_mem_id hc
    have hcpos : ∀ c ∈ routerCandidates logQ records toolTopK query,
        0 < c.score := fun c hc => hybridSearch_mem_pos hc
    have hsbg : scoreByGroup records (routerCandidates logQ records toolTopK query) ≠ [] :=
      scoreByGroup_ne_nil hne hres
    have hvals := scoreByGroup_pos records hcpos
    unfold routeGroup
    dsimp only
    rw [if_neg (by simpa [List.isEmpty_iff] using hne),
      if_neg (by simpa [List.isEmpty_iff] using hsbg)]
    have hpk := pickMax_mem hsbg
    have hfs : ((scoreByGroup records (routerCandidates logQ records toolTopK query)).find?
        (fun p => p.1 == (pickMax (scoreByGroup records
          (routerCandidates logQ records toolTopK query))).1)).isSome :=
      List.find?_isSome.mpr ⟨_, hpk, by simp⟩
    obtain ⟨q, hfind⟩ := Option.isSome_iff_exists.mp hfs
    have hq : q ∈ scoreByGroup records (routerCandidates logQ records toolTopK query) :=
      List.mem_of_find?_eq_some hfind
    have hqpos : 0 < q.2 := hvals q hq
    have hqsum : q.2 ≤ ((scoreByGroup records
        (routerCandidates logQ records toolTopK query)).map (fun p => p.2)).sum := by
      refine List.single_le_sum (fun x hx => ?_) _ (List.mem_map_of_mem _ hq)
      obtain ⟨p, hp, rfl⟩ := List.mem_map.mp hx
      exact (hvals p hp).le
    have hden : 0 < ((scoreByGroup records
        (routerCandidates logQ records toolTopK query)).map (fun p => p.2)).sum :=
      lt_of_lt_of_le hqpos hqsum
    unfold assocLookup
    rw [hfind]
    dsimp only [Option.map_some, Option.getD_some, GroupRoute.confidence]
    rw [if_neg hden.ne']
    exact ⟨div_pos hqpos hden, (div_le_one hden).mpr hqsum⟩
  · intro hemp
    unfold routeGroup
    dsimp only
    rw [if_pos (by simpa [List.isEmpty_iff] using hemp)]

/-- Witness for C2: one registry/query with a candidate, one without. -/
theorem routeGroup_confidence_bounds_witness :
    (0 < (routeGroup logConst [sampleRecord] 8 "a").confidence ∧
      (routeGroup logConst [sampleRecord] 8 "a").confidence ≤ 1) ∧
    routeGroup logConst [sampleRecord] 8 "zzz" =
      GroupRoute.mk "other" "no matching tools" 0 :=
  ⟨(routeGroup_confidence_bounds logConst [sampleRecord] 8 "a").1 (by decide),
   (routeGroup_confidence_bounds logConst [sampleRecord] 8 "zzz").2 (by decide)⟩

/-- C3 (counterexample): the gateway's guard is written
`if group and selected_group is None`, and the empty string is falsy in
Python, so a supplied-but-empty `group` argument — which is not one of the
nine recognized names — does not fail: `tool_search` computes a route and
returns a success envelope. -/
theorem toolSearch_empty_group_succeeds :
    groupNames.contains "" = false ∧
    toolSearch logConst [] "q" 8 (some "") =
      SearchEnvelope.success "q" (GroupRoute.mk "other" "no matching tools" 0) [] :=
  ⟨by decide, by decide⟩

/-- C3 (amended): when the supplied `group` is non-empty and not one of the
nine recognized names, `tool_search` returns the failure envelope with the
`invalid group` message and computes no route or results. -/
theorem toolSearch_invalid_group_fails (logQ : ℚ → ℚ)
    (records : List ToolRecord) (query : String) (k : Int) (g : String)
    (hne : g ≠ "") (hbad : groupNames.contains g = false) :
    toolSearch logQ records query k (some g) =
      SearchEnvelope.failure ("invalid group: " ++ g) := by
  have hpg : parseGroup (some g) = none := by
    unfold parseGroup
    dsimp only
    rw [if_neg (by rw [hbad]; exact Bool.false_ne_true)]
  unfold toolSearch
  dsimp only
  rw [hpg]
  rw [if_pos (by simp [groupTruthy, hne])]
  simp

/-- Witness for the amended C3 at a concrete unrecognized group. -/
theorem toolSearch_invalid_group_fails_witness :
    toolSearch logConst [] "q" 8 (some "bogus") =
      SearchEnvelope.failure ("invalid group: " ++ "bogus") :=
  toolSearch_invalid_group_fails logConst [] "q" 8 "bogus" (by decide) (by decide)

/-- C9: for a JSON object body whose `message` entry is absent, not a
string, or empty after stripping, the chat surface answers
`422 {success: false, error: "message_required"}` and never reaches the
agent. -/
theorem chat_message_required (kvs : JsonObject)
    (hmsg : ∀ s, jsonGet kvs "message" = some (Json.str s) → pyStrip s = "") :
    chatDecision (some (Json.obj kvs)) = ChatOutcome.messageRequired ∧
    chatErrorResponse (chatDecision (some (Json.obj kvs))) =
      some (422, [("success", Json.bool false), ("error", Json.str "message_required")]) ∧
    ∀ m sid, chatDecision (some (Json.obj kvs)) ≠ ChatOutcome.runAgent m sid := by
  have hdec : chatDecision (some (Json.obj kvs)) = ChatOutcome.messageRequired := by
    unfold chatDecision
    dsimp only
    cases hj : jsonGet kvs "message" with
    | none => rfl
    | some j =>
      cases j with
      | str s =>
        dsimp only
        rw [if_pos (by simp [hmsg s hj])]
      | int n => rfl
      | num q => rfl
      | bool b => rfl
      | null => rfl
      | arr xs => rfl
      | obj o => rfl
  refine ⟨hdec, by rw [hdec]; rfl, fun m sid => by rw [hdec]; simp⟩

/-- Witness for C9 at the concrete body of the spec scenario,
`{"message": ""}`. -/
theorem chat_message_required_witness :
    chatDecision (some (Json.obj [("message", Json.str "")])) =
      ChatOutcome.messageRequired ∧
    chatErrorResponse (chatDecision (some (Json.obj [("message", Json.str "")]))) =
      some (422, [("success", Json.bool false), ("error", Json.str "message_required")]) ∧
    ∀ m sid, chatDecision (some (Json.obj [("message", Json.str "")])) ≠
      ChatOutcome.runAgent m sid := by
  refine chat_message_required _ fun s h => ?_
  have hget : jsonGet [("message", Json.str "")] "message" = some (Json.str "") := rfl
  rw [hget] at h
  have hs := Json.str.inj (Option.some.inj h)
  subst hs
  rfl

/-- Boolean `any` agrees on two lists with the same members. -/
theorem list_any_congr {l₁ l₂ : List String} (h : ∀ n, n ∈ l₁ ↔ n ∈ l₂)
    (p : String → Bool) : l₁.any p = l₂.any p := by
  cases h₁ : l₁.any p <;> cases h₂ : l₂.any p
  · rfl
  · exfalso
    obtain ⟨x, hx, hpx⟩ := List.any_eq_true.mp h₂
    have hcon : l₁.any p = true := List.any_eq_true.mpr ⟨x, (h x).mpr hx, hpx⟩
    rw [h₁] at hcon
    exact Bool.false_ne_true hcon
  · exfalso
    obtain ⟨x, hx, hpx⟩ := List.any_eq_true.mp h₁
    have hcon : l₂.any p = true := List.any_eq_true.mpr ⟨x, (h x).mp hx, hpx⟩
    rw [h₂] at hcon
    exact Bool.false_ne_true hcon
  · rfl

/-- Boolean `all` agrees on two lists with the same members. -/
theorem list_all_congr {l₁ l₂ : List String} (h : ∀ n, n ∈ l₁ ↔ n ∈ l₂)
    (p : String → Bool) : l₁.all p = l₂.all p := by
  cases h₁ : l₁.all p <;> cases h₂ : l₂.all p
  · rfl
  · exfalso
    have hcon : l₁.all p = true :=
      List.all_eq_true.mpr fun x hx => List.all_eq_true.mp h₂ x ((h x).mp hx)
    rw [h₁] at hcon
    exact Bool.false_ne_true hcon
  · exfalso
    have hcon : l₂.all p = true :=
      List.all_eq_true.mpr fun x hx => List.all_eq_true.mp h₁ x ((h x).mpr hx)
    rw [h₂] at hcon
    exact Bool.false_ne_true hcon
  · rfl

/-- Boolean membership agrees on two lists with the same members. -/
theorem list_contains_congr {l₁ l₂ : List String} (h : ∀ n, n ∈ l₁ ↔ n ∈ l₂)
    (a : String) : l₁.contains a = l₂.contains a := by
  cases h₁ : l₁.contains a <;> cases h₂ : l₂.contains a
  · rfl
  · exfalso
    have hmem : a ∈ l₂ := List.mem_of_elem_eq_true h₂
    have hcon : l₁.contains a = true := List.elem_eq_true_of_mem ((h a).mpr hmem)
    rw [h₁] at hcon
    exact Bool.false_ne_true hcon
  · exfalso
    have hmem : a ∈ l₁ := List.mem_of_elem_eq_true h₁
    have hcon : l₂.contains a = true := List.elem_eq_true_of_mem ((h a).mp hmem)
    rw [h₂] at hcon
    exact Bool.false_ne_true hcon
  · rfl

/-- Emptiness agrees on two lists with the same members. -/
theorem list_isEmpty_congr {l₁ l₂ : List String} (h : ∀ n, n ∈ l₁ ↔ n ∈ l₂) :
    l₁.isEmpty = l₂.isEmpty := by
  cases l₁ with
  | nil =>
    cases l₂ with
    | nil => rfl
    | cons b bs => exact absurd ((h b).mpr (List.mem_cons_self b bs)) (List.not_mem_nil b)
  | cons a as =>
    cases l₂ with
    | nil => exact absurd ((h a).mp (List.mem_cons_self a as)) (List.not_mem_nil a)
    | cons b bs => rfl

/-- The detected case depends only on the set of registered tool names. -/
theorem detectCase_congr (m : String) {names₁ names₂ : List String}
    (h : ∀ n, n ∈ names₁ ↔ n ∈ names₂) :
    detectCase m names₁ = detectCase m names₂ := by
  unfold detectCase
  have hdoc : (fun n => names₁.contains n) = (fun n => names₂.contains n) :=
    funext fun n => list_contains_congr h n
  rw [list_any_congr h (fun n => strStarts n "hwp_windows_"),
    list_contains_congr h "hwp_list_templates",
    list_contains_congr h "hwp_create_hwpx",
    list_isEmpty_congr h,
    list_all_congr h (fun n =>
      strContains n "xml" || strContains n "xpath" || strContains n "smart_patch"),
    hdoc]

/-- The selected tool depends only on the set of registered tool names. -/
theorem selectedToolName_congr (subagent intent m : String)
    {names₁ names₂ : List String} (h : ∀ n, n ∈ names₁ ↔ n ∈ names₂) :
    selectedToolName subagent intent m names₁ =
      selectedToolName subagent intent m names₂ := by
  unfold selectedToolName
  have hdoc : (fun n => names₁.contains n) = (fun n => names₂.contains n) :=
    funext fun n => list_contains_congr h n
  rw [hdoc]

/-- C6: the agent's classification pipeline is deterministic — it is a
pure function of the message, and for two registries exposing the same set
of tool names the computed case, intent, subagent and selected tool
coincide. -/
theorem agentDecision_deterministic (message : String)
    (names₁ names₂ : List String) (h : ∀ n, n ∈ names₁ ↔ n ∈ names₂) :
    agentDecision message names₁ = agentDecision message names₂ := by
  unfold agentDecision
  dsimp only
  rw [detectCase_congr (pyStrip message) h, selectedToolName_congr _ _ _ h]

/-- Witness for C6: two registries with the same name set (one lists the
tool twice) produce the same decision. -/
theorem agentDecision_deterministic_witness :
    agentDecision "check status" ["hwp_ping", "hwp_ping"] =
      agentDecision "check status" ["hwp_ping"] :=
  agentDecision_deterministic _ _ _ (by intro n; simp [List.mem_cons])

end Theorems

end HwpxMcp
